import Mathlib

/-!
Verification of the BDSP event-script analyzer (parser + semantic validator).

The definitions below are a shallow embedding of the TypeScript sources
`src/utils/parser.ts`, `src/providers/diagnosticProvider.ts` and the schema
shapes of `src/data/dataLoader.ts`.  Lines of a document are modelled as a
`List String` (each without a newline); columns are zero-based `Nat` indices
into the line's character list, mirroring the host editor's line/column
addressing.  JavaScript `Map` objects are modelled as association lists with
in-place-overwrite `set` semantics.
-/

namespace BDSP

/-- JS regex class `[A-Z]`. -/
def isUpperAZ (c : Char) : Bool := 'A' ≤ c && c ≤ 'Z'

/-- JS regex class `[a-z]`. -/
def isLowerAZ (c : Char) : Bool := 'a' ≤ c && c ≤ 'z'

/-- JS regex class `[0-9]`. -/
def isDigit09 (c : Char) : Bool := '0' ≤ c && c ≤ '9'

/-- First character of a command identifier: `[A-Z_]`. -/
def isCmdStartChar (c : Char) : Bool := isUpperAZ c || c = '_'

/-- Later character of a command identifier: `[A-Z0-9_]`. -/
def isCmdChar (c : Char) : Bool := isUpperAZ c || isDigit09 c || c = '_'

/-- First character of a label identifier: `[a-zA-Z_]`. -/
def isLabelStartChar (c : Char) : Bool := isUpperAZ c || isLowerAZ c || c = '_'

/-- Later character of a label identifier: `[a-zA-Z0-9_]`. -/
def isLabelChar (c : Char) : Bool := isLabelStartChar c || isDigit09 c

/-- Whitespace as matched by JS `\s` / trimmed by `String.prototype.trim`
(restricted to the ASCII whitespace characters that can occur in a line). -/
def isWsChar (c : Char) : Bool :=
  c = ' ' || c = '\t' || c = '\n' || c = '\r' || c = Char.ofNat 11 || c = Char.ofNat 12

/-- Strip leading whitespace (JS `trimStart`). -/
def ltrim (l : List Char) : List Char := l.dropWhile isWsChar

/-- Strip trailing whitespace (JS `trimEnd`). -/
def rtrim : List Char → List Char
  | [] => []
  | c :: rest =>
    match rtrim rest with
    | [] => if isWsChar c then [] else [c]
    | r => c :: r

/-- JS `String.prototype.trim`. -/
def trimChars (l : List Char) : List Char := rtrim (ltrim l)

/-- Helper for `firstIndexOfSub?`: first index `≥ i` at which `pat` occurs. -/
def firstIndexOfSubAux (pat : List Char) : List Char → Nat → Option Nat
  | [], i => if pat.isEmpty then some i else none
  | c :: rest, i =>
    if pat.isPrefixOf (c :: rest) then some i else firstIndexOfSubAux pat rest (i + 1)

/-- JS `text.indexOf(pat)`: index of the first occurrence of the substring
`pat`, or `none` where JS would return `-1`. -/
def firstIndexOfSub? (text pat : List Char) : Option Nat :=
  firstIndexOfSubAux pat text 0

/-- Helper for `indexOfCharFrom`. -/
def indexOfCharFromAux (c : Char) : List Char → Nat → Option Nat
  | [], _ => none
  | x :: rest, i => if x = c then some i else indexOfCharFromAux c rest (i + 1)

/-- JS `text.indexOf(c, start)`: index of the first occurrence of character
`c` at position `≥ start`, or `none` where JS would return `-1`. -/
def indexOfCharFrom (text : List Char) (c : Char) (start : Nat) : Option Nat :=
  indexOfCharFromAux c (text.drop start) start

/-- Helper for `lastIndexOfChar`. -/
def lastIndexOfCharAux (c : Char) : List Char → Nat → Option Nat → Option Nat
  | [], _, acc => acc
  | x :: rest, i, acc =>
    lastIndexOfCharAux c rest (i + 1) (if x = c then some i else acc)

/-- JS `text.lastIndexOf(c)`, or `none` where JS would return `-1`. -/
def lastIndexOfChar (text : List Char) (c : Char) : Option Nat :=
  lastIndexOfCharAux c text 0 none

/-- Anchored match of the label rule `^([a-zA-Z_][a-zA-Z0-9_]*):`, returning
the captured identifier.  The identifier is matched greedily; since an
identifier character can never satisfy the following `:`, greedy matching is
exact. -/
def labelMatch : List Char → Option String
  | [] => none
  | c :: rest =>
    if isLabelStartChar c then
      match rest.dropWhile isLabelChar with
      | ':' :: _ => some (String.mk (c :: rest.takeWhile isLabelChar))
      | _ => none
    else none

/-- Search for the regex `([A-Z_][A-Z0-9_]*)\s*\(` starting at offset `i` of
the given suffix, as JS `String.prototype.match` does (leftmost match wins;
at each start the identifier and the whitespace run are matched greedily,
which is exact because an identifier character is neither whitespace nor an
opening parenthesis).  Returns `(matchStart, matchEnd, capturedName)` where
`matchEnd` is the index just past the matched `(`. -/
def cmdMatchFrom : List Char → Nat → Option (Nat × Nat × String)
  | [], _ => none
  | c :: rest, i =>
    if isCmdStartChar c then
      match (rest.dropWhile isCmdChar).dropWhile isWsChar with
      | '(' :: _ =>
        some (i,
          i + 1 + (rest.takeWhile isCmdChar).length +
            ((rest.dropWhile isCmdChar).takeWhile isWsChar).length + 1,
          String.mk (c :: rest.takeWhile isCmdChar))
      | _ => cmdMatchFrom rest (i + 1)
    else cmdMatchFrom rest (i + 1)

/-- The captured command name of the first `([A-Z_][A-Z0-9_]*)\s*\(` match
on the line (`cmdMatch[1]` in the source). -/
def cmdMatch (text : List Char) : Option String :=
  (cmdMatchFrom text 0).map (fun r => r.2.2)

/-- The start position of the first `([A-Z_][A-Z0-9_]*)\s*\(` match on the
line (the JS match's `.index`, which the source does not consult). -/
def cmdMatchPos (text : List Char) : Option Nat :=
  (cmdMatchFrom text 0).map (fun r => r.1)

/-- Helper loop of `findMatchingParen`. -/
def findMatchingParenGo : List Char → Nat → Nat → Int
  | [], _, _ => -1
  | c :: rest, i, depth =>
    if c = '(' then findMatchingParenGo rest (i + 1) (depth + 1)
    else if c = ')' then
      (if depth = 1 then (i : Int) else findMatchingParenGo rest (i + 1) (depth - 1))
    else findMatchingParenGo rest (i + 1) depth

/-- `findMatchingParen` of `parser.ts`: depth-counting search for the paren
matching the one at `openIndex`; `-1` when unterminated. -/
def findMatchingParen (text : List Char) (openIndex : Nat) : Int :=
  findMatchingParenGo (text.drop (openIndex + 1)) (openIndex + 1) 1

/-- Source ranges (`vscode.Range`): start line/column, end line/column. -/
structure Range where
  startLine : Nat
  startCol : Nat
  endLine : Nat
  endCol : Nat
deriving DecidableEq, Repr

/-- The classified kind of a parsed argument (`ParsedArgument.type`). -/
inductive ArgType where
  | number
  | string
  | work
  | flag
  | sysflag
  | label
  | comparator
  | unknown
deriving DecidableEq, Repr

/-- The serialization of an `ArgType` used in diagnostic messages (the TS
union member strings). -/
def argTypeName : ArgType → String
  | ArgType.number => "number"
  | ArgType.string => "string"
  | ArgType.work => "work"
  | ArgType.flag => "flag"
  | ArgType.sysflag => "sysflag"
  | ArgType.label => "label"
  | ArgType.comparator => "comparator"
  | ArgType.unknown => "unknown"

/-- `ParsedArgument` of `parser.ts`. -/
structure ParsedArgument where
  value : String
  type : ArgType
  range : Range
deriving DecidableEq, Repr

/-- `ParsedLabel` of `parser.ts`. -/
structure ParsedLabel where
  name : String
  line : Nat
  range : Range
deriving DecidableEq, Repr

/-- `ParsedCommand` of `parser.ts`. -/
structure ParsedCommand where
  name : String
  line : Nat
  column : Nat
  args : List ParsedArgument
  range : Range
deriving DecidableEq, Repr

/-- A label-reference site (element of `ParsedDocument.labelReferences`). -/
structure LabelRef where
  name : String
  range : Range
  line : Nat
deriving DecidableEq, Repr

/-- `ParsedDocument` of `parser.ts`; the label `Map` is modelled as an
association list with JS `Map.set` overwrite semantics (`mapSet`). -/
structure ParsedDocument where
  labels : List (String × ParsedLabel)
  commands : List ParsedCommand
  labelReferences : List LabelRef
deriving DecidableEq, Repr

/-- JS `Map.prototype.set`: overwrite the entry in place when the key is
already present, otherwise append. -/
def mapSet {α : Type} : List (String × α) → String → α → List (String × α)
  | [], k, v => [(k, v)]
  | (k', v') :: rest, k, v =>
    if k' = k then (k, v) :: rest else (k', v') :: mapSet rest k v

/-- The numeric-literal regex `^-?\d+(\.\d+)?$`. -/
def isNumberLit (l : List Char) : Bool :=
  let l1 := match l with
    | '-' :: rest => rest
    | _ => l
  let ds := l1.takeWhile isDigit09
  let rest := l1.dropWhile isDigit09
  !ds.isEmpty &&
    (rest.isEmpty ||
      (match rest with
       | '.' :: frac => !frac.isEmpty && frac.all isDigit09
       | _ => false))

/-- The comparator-keyword regex `^(GE|GT|LE|LT|EQ|NE)$` of `createArgument`. -/
def comparatorKeywords : List String := ["GE", "GT", "LE", "LT", "EQ", "NE"]

/-- `createArgument` of `parser.ts`: classification of a (pre-trimmed)
argument token, first match wins. -/
def createArgument (value : String) (line startCol endCol : Nat) : ParsedArgument :=
  let range : Range := ⟨line, startCol, line, endCol⟩
  match value.data with
  | '@' :: _ => ⟨value, ArgType.work, range⟩
  | '#' :: _ => ⟨value, ArgType.flag, range⟩
  | '$' :: _ => ⟨value, ArgType.sysflag, range⟩
  | '"' :: _ => ⟨value, ArgType.string, range⟩
  | '\'' :: _ => ⟨value, ArgType.string, range⟩
  | _ =>
    if isNumberLit value.data then ⟨value, ArgType.number, range⟩
    else if comparatorKeywords.contains value then ⟨value, ArgType.comparator, range⟩
    else ⟨value, ArgType.unknown, range⟩

/-- The character loop of `parseArguments`: `pos` is the column of the next
character, `currentArg`/`inString`/`stringChar`/`argStartCol` mirror the
loop's mutable state, `args` the accumulated result. -/
def parseArgumentsGo (line : Nat) :
    List Char → Nat → List Char → Bool → Char → Nat → List ParsedArgument →
    List ParsedArgument
  | [], pos, currentArg, _, _, argStartCol, args =>
    if (trimChars currentArg).isEmpty then args
    else args ++ [createArgument (String.mk (trimChars currentArg)) line argStartCol pos]
  | c :: rest, pos, currentArg, inString, stringChar, argStartCol, args =>
    if !inString && (c = '"' || c = '\'') then
      parseArgumentsGo line rest (pos + 1) (currentArg ++ [c]) true c argStartCol args
    else if inString && c = stringChar then
      parseArgumentsGo line rest (pos + 1) (currentArg ++ [c]) false stringChar argStartCol args
    else if !inString && c = ',' then
      let args' :=
        if (trimChars currentArg).isEmpty then args
        else args ++ [createArgument (String.mk (trimChars currentArg)) line argStartCol pos]
      parseArgumentsGo line rest (pos + 1) [] inString stringChar (pos + 1) args'
    else
      let argStartCol' :=
        if currentArg.isEmpty && c ≠ ' ' && c ≠ '\t' then pos else argStartCol
      parseArgumentsGo line rest (pos + 1) (currentArg ++ [c]) inString stringChar argStartCol' args

/-- `parseArguments` of `parser.ts`. -/
def parseArguments (argsText : List Char) (line startCol : Nat) : List ParsedArgument :=
  if (trimChars argsText).isEmpty then []
  else parseArgumentsGo line argsText startCol [] false ' ' startCol []

/-- `JUMP_COMMANDS` of `parser.ts`. -/
def JUMP_COMMANDS : List String :=
  ["_JUMP", "_CALL",
   "_IF_FLAGON_JUMP", "_IF_FLAGOFF_JUMP",
   "_IF_FLAGON_CALL", "_IF_FLAGOFF_CALL",
   "_IFVAL_JUMP", "_IFVAL_CALL",
   "_OBJ_ANIME"]

/-- `isJumpCommand` of `parser.ts`. -/
def isJumpCommand (cmdName : String) : Bool := JUMP_COMMANDS.contains cmdName

/-- `getLabelArgument` of `parser.ts`. -/
def getLabelArgument (cmdName : String) (args : List ParsedArgument) :
    Option ParsedArgument :=
  if cmdName = "_JUMP" || cmdName = "_CALL" then args[0]?
  else if cmdName = "_IF_FLAGON_JUMP" || cmdName = "_IF_FLAGOFF_JUMP" ||
          cmdName = "_IF_FLAGON_CALL" || cmdName = "_IF_FLAGOFF_CALL" then args[1]?
  else if cmdName = "_IFVAL_JUMP" || cmdName = "_IFVAL_CALL" then args[3]?
  else if cmdName = "_OBJ_ANIME" then args[1]?
  else none

/-- JS `value.replace(/['"]/g, '')`: delete every quote character. -/
def stripQuotes (s : String) : String :=
  String.mk (s.data.filter (fun c => c ≠ '"' && c ≠ '\''))

/-- The skip test at the head of `parseDocument`'s line loop: blank lines
and `;`/`//` comment lines contribute nothing. -/
def skipLine (text : List Char) : Bool :=
  let trimmed := trimChars text
  trimmed.isEmpty || [';'].isPrefixOf trimmed || ['/', '/'].isPrefixOf trimmed

/-- The label branch of `parseDocument`'s line loop. -/
def lineLabel (i : Nat) (text : List Char) : Option ParsedLabel :=
  if skipLine text then none
  else
    match labelMatch text with
    | none => none
    | some labelName =>
      let startCol := (firstIndexOfSub? text labelName.data).getD 0
      some ⟨labelName, i, ⟨i, startCol, i, startCol + labelName.length + 1⟩⟩

/-- The command branch of `parseDocument`'s line loop. -/
def lineCommand (i : Nat) (text : List Char) : Option ParsedCommand :=
  if skipLine text then none
  else
    match cmdMatch text with
    | none => none
    | some cmdName =>
      let cmdStartCol := (firstIndexOfSub? text cmdName.data).getD 0
      let openParen := (indexOfCharFrom text '(' cmdStartCol).getD 0
      let closeParen := findMatchingParen text openParen
      let argsText :=
        if closeParen > (openParen : Int) then
          (text.take closeParen.toNat).drop (openParen + 1)
        else text.drop (openParen + 1)
      let args := parseArguments argsText i (openParen + 1)
      some ⟨cmdName, i, cmdStartCol, args,
        ⟨i, cmdStartCol, i,
         if closeParen > 0 then closeParen.toNat + 1 else text.length⟩⟩

/-- The label-reference tracking applied to a parsed command in
`parseDocument`. -/
def lineLabelRef (c : ParsedCommand) : Option LabelRef :=
  if isJumpCommand c.name && c.args.length > 0 then
    match getLabelArgument c.name c.args with
    | some labelArg =>
      if labelArg.type = ArgType.string then
        some ⟨stripQuotes labelArg.value, labelArg.range, c.line⟩
      else none
    | none => none
  else none

/-- One iteration of `parseDocument`'s line loop: record the label (if any),
then the command and its label reference (if any). -/
def parseLine (i : Nat) (text : List Char) (acc : ParsedDocument) : ParsedDocument :=
  let acc1 :=
    match lineLabel i text with
    | some lb => { acc with labels := mapSet acc.labels lb.name lb }
    | none => acc
  match lineCommand i text with
  | some c =>
    { acc1 with
      commands := acc1.commands ++ [c],
      labelReferences := acc1.labelReferences ++ (lineLabelRef c).toList }
  | none => acc1

/-- The line loop of `parseDocument`, starting at line index `i`. -/
def parseGo (i : Nat) (acc : ParsedDocument) : List String → ParsedDocument
  | [] => acc
  | ln :: rest => parseGo (i + 1) (parseLine i ln.data acc) rest

/-- `parseDocument` of `parser.ts`; the document is its list of lines. -/
def parseDocument (lines : List String) : ParsedDocument :=
  parseGo 0 ⟨[], [], []⟩ lines

/-! ### Query surface (`getActiveContext` of `parser.ts`) -/

/-- All matches of the global regex `([A-Z_][A-Z0-9_]*)\s*\(/g`: JS scans
left to right, resuming after the end of each match.  Matched substrings
(name, intervening whitespace, opening paren) are returned in order; the
fuel argument bounds the number of matches by the text length. -/
def cmdMatchesGo : Nat → List Char → List (List Char)
  | 0, _ => []
  | fuel + 1, text =>
    match cmdMatchFrom text 0 with
    | none => []
    | some (s, e, _) => ((text.drop s).take (e - s)) :: cmdMatchesGo fuel (text.drop e)

/-- `textUntilPosition.match(/([A-Z_][A-Z0-9_]*)\s*\(/g)` as a list of
matched substrings. -/
def cmdMatches (text : List Char) : List (List Char) :=
  cmdMatchesGo (text.length + 1) text

/-- As `cmdMatchesGo`, but pairing each matched substring with the regex's
captured command name; `cmdMatches_eq_map_fst` relates the two. -/
def cmdMatchesFullGo : Nat → List Char → List (List Char × String)
  | 0, _ => []
  | fuel + 1, text =>
    match cmdMatchFrom text 0 with
    | none => []
    | some (s, e, nm) =>
      ((text.drop s).take (e - s), nm) :: cmdMatchesFullGo fuel (text.drop e)

/-- The global-regex matches of a text together with their captured command
names. -/
def cmdMatchesFull (text : List Char) : List (List Char × String) :=
  cmdMatchesFullGo (text.length + 1) text

/-- JS `str.replace('(', '')`: remove the first occurrence of `(`. -/
def removeFirstParen : List Char → List Char
  | [] => []
  | c :: rest => if c = '(' then rest else c :: removeFirstParen rest

/-- `getActiveContext` of `parser.ts`: the name of the innermost open call
before the cursor and the current argument index (comma count after the
last open paren). -/
def getActiveContext (lineText : String) (character : Nat) : Option (String × Nat) :=
  let textUntilPosition := lineText.data.take character
  match (cmdMatches textUntilPosition).getLast? with
  | none => none
  | some lastMatch =>
    let cmdName := String.mk (trimChars (removeFirstParen lastMatch))
    let openParenIndex := (lastIndexOfChar textUntilPosition '(').getD 0
    let textAfterOpenParen := textUntilPosition.drop openParenIndex
    if textAfterOpenParen.contains ')' then none
    else some (cmdName, (textAfterOpenParen.filter (fun c => c = ',')).length)

/-- Modelled from the spec (§4.5, §8): the count of *top-level* commas of a
text — commas inside a matching pair of identical quote characters are not
counted.  This is the claim's notion of argument index, written for
comparison with what `getActiveContext` computes. -/
def countTopLevelCommas (text : List Char) : Nat :=
  go text false ' ' 0
where
  go : List Char → Bool → Char → Nat → Nat
    | [], _, _, n => n
    | c :: rest, inString, stringChar, n =>
      if !inString && (c = '"' || c = '\'') then go rest true c n
      else if inString && c = stringChar then go rest false stringChar n
      else if !inString && c = ',' then go rest inString stringChar (n + 1)
      else go rest inString stringChar n

/-- Helper for `activeCallContextSpec`: the `COMMAND(` matches of the line
prefix, each as (position of its open parenthesis, captured command name);
`base` is the offset of `text` within the prefix. -/
def openCallsGo : Nat → Nat → List Char → List (Nat × String)
  | 0, _, _ => []
  | fuel + 1, base, text =>
    match cmdMatchFrom text 0 with
    | none => []
    | some (_, e, nm) => (base + e - 1, nm) :: openCallsGo fuel (base + e) (text.drop e)

/-- Modelled from the spec (§4.5): the active-call context *as the claim
states it* — the most recent `COMMAND(` opening on the line prefix that has
not been closed by a matching `)` before the cursor (matching located by
depth counting), reported with the count of top-level commas between that
open parenthesis and the cursor; none when the cursor is inside no open
call.  Written for comparison with what `getActiveContext` computes. -/
def activeCallContextSpec (lineText : String) (character : Nat) :
    Option (String × Nat) :=
  let prefixText := lineText.data.take character
  let openCalls := (openCallsGo (prefixText.length + 1) 0 prefixText).filter
    (fun pr => findMatchingParen prefixText pr.1 < 0)
  match openCalls.getLast? with
  | none => none
  | some (openPos, nm) =>
    some (nm, countTopLevelCommas (prefixText.drop (openPos + 1)))

/-! ### Schema registry (`dataLoader.ts`) -/

/-- `CommandArg` of `dataLoader.ts` (the `Type` field is renamed `Type'`
because `Type` is a Lean keyword). -/
structure CommandArg where
  TentativeName : String
  Description : String
  Type' : List String
  Optional : Bool
deriving DecidableEq, Repr

/-- `Command` of `dataLoader.ts`. -/
structure Command where
  Id : Nat
  Name : String
  Description : String
  Dummy : Bool
  Animation : Bool
  Args : List CommandArg
deriving DecidableEq, Repr

/-- The registry's `commandLookup` map (name → command definition), loaded
once and read-only thereafter. -/
def Registry : Type := List (String × Command)

/-- `DataLoader.getCommand`. -/
def getCommand (registry : Registry) (name : String) : Option Command :=
  List.lookup name (registry : List (String × Command))

/-! ### Semantic validator (`diagnosticProvider.ts`) -/

/-- `vscode.DiagnosticSeverity`, restricted to the two members the provider
emits. -/
inductive DiagnosticSeverity where
  | error
  | warning
deriving DecidableEq, Repr

/-- `vscode.Diagnostic` as populated by `createDiagnostic`. -/
structure Diagnostic where
  range : Range
  message : String
  severity : DiagnosticSeverity
  source : String
deriving DecidableEq, Repr

/-- `createDiagnostic` of `diagnosticProvider.ts`. -/
def createDiagnostic (range : Range) (message : String)
    (severity : DiagnosticSeverity) : Diagnostic :=
  ⟨range, message, severity, "bdsp-ev"⟩

/-- `VALID_COMPARATORS` of `diagnosticProvider.ts`. -/
def VALID_COMPARATORS : List String := ["GE", "GT", "LE", "LT", "EQ", "NE"]

/-- The provider's `JUMP_COMMANDS` map: command name → zero-based index of
its label-bearing argument. -/
def JUMP_COMMANDS_TABLE : List (String × Nat) :=
  [("_JUMP", 0), ("_CALL", 0),
   ("_IF_FLAGON_JUMP", 1), ("_IF_FLAGOFF_JUMP", 1),
   ("_IF_FLAGON_CALL", 1), ("_IF_FLAGOFF_CALL", 1),
   ("_IFVAL_JUMP", 3), ("_IFVAL_CALL", 3),
   ("_OBJ_ANIME", 1)]

/-- `IFVAL_COMMANDS` of `diagnosticProvider.ts`. -/
def IFVAL_COMMANDS : List String := ["_IFVAL_JUMP", "_IFVAL_CALL"]

/-- `validateArgumentCount` of `diagnosticProvider.ts`. -/
def validateArgumentCount (cmd : ParsedCommand) (cmdDef : Command) :
    Option Diagnostic :=
  let expectedArgs := cmdDef.Args
  let requiredCount := (expectedArgs.filter (fun a => !a.Optional)).length
  let maxCount := expectedArgs.length
  let actualCount := cmd.args.length
  if actualCount < requiredCount then
    some (createDiagnostic cmd.range
      (cmd.name ++ " requires at least " ++ toString requiredCount ++
        " argument(s), but got " ++ toString actualCount)
      DiagnosticSeverity.error)
  else if actualCount > maxCount then
    some (createDiagnostic cmd.range
      (cmd.name ++ " accepts at most " ++ toString maxCount ++
        " argument(s), but got " ++ toString actualCount)
      DiagnosticSeverity.warning)
  else none

/-- `isArgumentTypeValid` of `diagnosticProvider.ts`. -/
def isArgumentTypeValid (arg : ParsedArgument) (expectedTypes : List String) : Bool :=
  (expectedTypes.any (fun t =>
     if t = "Number" then arg.type == ArgType.number
     else if t = "Work" then arg.type == ArgType.work || arg.type == ArgType.number
     else if t = "Flag" then arg.type == ArgType.flag || arg.type == ArgType.number
     else if t = "SysFlag" || t = "System" then
       arg.type == ArgType.sysflag || arg.type == ArgType.number
     else if t = "Label" then arg.type == ArgType.string
     else if t = "String" then arg.type == ArgType.string
     else false))
  || arg.type == ArgType.unknown

/-- JS `arr.join(sep)`. -/
def joinStrings (sep : String) : List String → String
  | [] => ""
  | [s] => s
  | s :: rest => s ++ sep ++ joinStrings sep rest

/-- The position loop of `validateArgumentTypes` (positions present in both
the call and the schema slot list, zero-based `i`). -/
def validateArgumentTypesGo : List ParsedArgument → List CommandArg → Nat →
    List Diagnostic
  | arg :: args, expectedArg :: expectedArgs, i =>
    let rest := validateArgumentTypesGo args expectedArgs (i + 1)
    if expectedArg.Type'.isEmpty then rest
    else if isArgumentTypeValid arg expectedArg.Type' then rest
    else
      createDiagnostic arg.range
        ("Argument " ++ toString (i + 1) ++ " (" ++ expectedArg.TentativeName ++
          "): expected " ++ joinStrings " | " expectedArg.Type' ++ ", got " ++
          argTypeName arg.type)
        DiagnosticSeverity.warning :: rest
  | _, _, _ => []

/-- `validateArgumentTypes` of `diagnosticProvider.ts`. -/
def validateArgumentTypes (cmd : ParsedCommand) (cmdDef : Command) :
    List Diagnostic :=
  validateArgumentTypesGo cmd.args cmdDef.Args 0

/-- `validateLabelReference` of `diagnosticProvider.ts`. -/
def validateLabelReference (cmd : ParsedCommand)
    (labels : List (String × ParsedLabel)) : Option Diagnostic :=
  match List.lookup cmd.name JUMP_COMMANDS_TABLE with
  | none => none
  | some labelArgIndex =>
    match cmd.args[labelArgIndex]? with
    | none => none
    | some arg =>
      if arg.type ≠ ArgType.string then none
      else
        let labelName := stripQuotes arg.value
        if (List.lookup labelName labels).isSome then none
        else
          some (createDiagnostic arg.range ("Undefined label: " ++ labelName)
            DiagnosticSeverity.error)

/-- `validateComparator` of `diagnosticProvider.ts` (its `cmdDef` parameter
is unused in the source as well). -/
def validateComparator (cmd : ParsedCommand) (_cmdDef : Command) :
    Option Diagnostic :=
  if !(IFVAL_COMMANDS.contains cmd.name) then none
  else
    match cmd.args[1]? with
    | none => none
    | some arg =>
      let value := stripQuotes arg.value
      if VALID_COMPARATORS.contains value then none
      else
        some (createDiagnostic arg.range
          ("Invalid comparator: " ++ value ++ ". Expected one of: GE, GT, LE, LT, EQ, NE")
          DiagnosticSeverity.error)

/-- The per-command body of `updateDiagnostics`'s loop: one unknown-command
error (skipping every other check), or the concatenation of the four
category checks. -/
def diagnosticsFor (registry : Registry) (labels : List (String × ParsedLabel))
    (cmd : ParsedCommand) : List Diagnostic :=
  match getCommand registry cmd.name with
  | none =>
    [createDiagnostic cmd.range ("Unknown command: " ++ cmd.name)
      DiagnosticSeverity.error]
  | some cmdDef =>
    (validateArgumentCount cmd cmdDef).toList
      ++ validateArgumentTypes cmd cmdDef
      ++ (validateLabelReference cmd labels).toList
      ++ (validateComparator cmd cmdDef).toList

/-- `updateDiagnostics` of `diagnosticProvider.ts`: parse the document and
validate every parsed command in order. -/
def updateDiagnostics (registry : Registry) (lines : List String) :
    List Diagnostic :=
  let parsed := parseDocument lines
  (parsed.commands.map (diagnosticsFor registry parsed.labels)).flatten

/-! ### Specification-side helper definitions

These are not part of the embedding; they are the vocabulary in which some
theorems below state what the parser produces. -/

/-- A character that is neither a comma nor a quote character: inert for
the argument splitter's state machine. -/
def isPlainChar (c : Char) : Bool := c ≠ ',' && c ≠ '"' && c ≠ '\''

/-- The values (only) computed by `parseArgumentsGo`, with positions
erased; `parseArgumentsGo_values` proves the correspondence. -/
def argValuesGo : List Char → List Char → Bool → Char → List String → List String
  | [], currentArg, _, _, acc =>
    if (trimChars currentArg).isEmpty then acc
    else acc ++ [String.mk (trimChars currentArg)]
  | c :: rest, currentArg, inString, stringChar, acc =>
    if !inString && (c = '"' || c = '\'') then
      argValuesGo rest (currentArg ++ [c]) true c acc
    else if inString && c = stringChar then
      argValuesGo rest (currentArg ++ [c]) false stringChar acc
    else if !inString && c = ',' then
      argValuesGo rest [] inString stringChar
        (if (trimChars currentArg).isEmpty then acc
         else acc ++ [String.mk (trimChars currentArg)])
    else argValuesGo rest (currentArg ++ [c]) inString stringChar acc

/-- Raw argument text written as comma-separated segments. -/
def joinCommas : List (List Char) → List Char
  | [] => []
  | [s] => s
  | s :: rest => s ++ ',' :: joinCommas rest

/-- The argument values a segment list should produce: each segment is
trimmed, and segments that trim to nothing are dropped. -/
def emitVals (acc : List String) : List (List Char) → List String
  | [] => acc
  | s :: rest =>
    emitVals
      (if (trimChars s).isEmpty then acc else acc ++ [String.mk (trimChars s)])
      rest

/-- Prepend pending text to the first segment (used to state the splitter's
intermediate states). -/
def consHead (cur : List Char) : List (List Char) → List (List Char)
  | [] => [cur]
  | s :: rest => (cur ++ s) :: rest

/-- The commands contributed by a run of lines starting at line index `i`
(one optional command per line); `parseGo_commands` relates this to the
accumulator pass. -/
def linesCmds (i : Nat) : List String → List ParsedCommand
  | [] => []
  | ln :: rest => (lineCommand i ln.data).toList ++ linesCmds (i + 1) rest

/-! ## Helper lemmas -/

theorem labelStart_not_ws {c : Char} (h : isLabelStartChar c = true) :
    isWsChar c = false := by
  cases hws : isWsChar c
  · rfl
  · exfalso
    unfold isWsChar at hws
    simp only [Bool.or_eq_true, decide_eq_true_eq] at hws
    rcases hws with ((((h1 | h1) | h1) | h1) | h1) | h1 <;> subst h1 <;>
      exact absurd h (by decide)

theorem labelStart_ne_semi {c : Char} (h : isLabelStartChar c = true) :
    c ≠ ';' := by
  intro h1; subst h1; exact absurd h (by decide)

theorem labelStart_ne_slash {c : Char} (h : isLabelStartChar c = true) :
    c ≠ '/' := by
  intro h1; subst h1; exact absurd h (by decide)

theorem rtrim_cons_of_not_ws {c : Char} (h : isWsChar c = false) (l : List Char) :
    rtrim (c :: l) = c :: rtrim l := by
  show (match rtrim l with
    | [] => if isWsChar c then [] else [c]
    | r => c :: r) = c :: rtrim l
  cases hr : rtrim l with
  | nil => simp [h]
  | cons x xs => rfl

theorem trimChars_cons_of_not_ws {c : Char} (h : isWsChar c = false) (l : List Char) :
    trimChars (c :: l) = c :: rtrim l := by
  unfold trimChars ltrim
  rw [List.dropWhile_cons_of_neg (by simp [h]), rtrim_cons_of_not_ws h]

theorem skipLine_false_of_labelStart {c : Char} {rest : List Char}
    (h : isLabelStartChar c = true) :
    skipLine (c :: rest) = false := by
  unfold skipLine
  rw [trimChars_cons_of_not_ws (labelStart_not_ws h)]
  have hsemi : ¬(';' = c) := fun he => labelStart_ne_semi h he.symm
  have hslash : ¬('/' = c) := fun he => labelStart_ne_slash h he.symm
  simp [List.isPrefixOf, hsemi, hslash]

theorem labelMatch_elim {text : List Char} {name : String}
    (h : labelMatch text = some name) :
    ∃ c rest, text = c :: rest ∧ isLabelStartChar c = true ∧
      name = String.mk (c :: rest.takeWhile isLabelChar) := by
  cases text with
  | nil => simp [labelMatch] at h
  | cons c rest =>
    simp only [labelMatch] at h
    by_cases hc : isLabelStartChar c = true
    · rw [if_pos hc] at h
      refine ⟨c, rest, rfl, hc, ?_⟩
      split at h
      · simp only [Option.some.injEq] at h
        exact h.symm
      · exact absurd h (by simp)
    · rw [if_neg hc] at h
      exact absurd h (by simp)

theorem labelMatch_skipLine_false {text : List Char} {name : String}
    (h : labelMatch text = some name) : skipLine text = false := by
  obtain ⟨c, rest, htext, hc, -⟩ := labelMatch_elim h
  subst htext
  exact skipLine_false_of_labelStart hc

theorem labelMatch_isPrefix {text : List Char} {name : String}
    (h : labelMatch text = some name) : name.data.isPrefixOf text = true := by
  obtain ⟨c, rest, htext, -, hname⟩ := labelMatch_elim h
  subst htext hname
  rw [List.isPrefixOf_iff_prefix]
  exact List.cons_prefix_cons.mpr ⟨rfl, rest.takeWhile_prefix _⟩

theorem firstIndexOfSub?_zero {text pat : List Char}
    (h : pat.isPrefixOf text = true) : firstIndexOfSub? text pat = some 0 := by
  unfold firstIndexOfSub?
  cases text with
  | nil =>
    cases pat with
    | nil => rfl
    | cons p ps => simp [List.isPrefixOf] at h
  | cons c rest =>
    unfold firstIndexOfSubAux
    rw [if_pos h]

theorem lookup_mapSet_self {α : Type} (l : List (String × α)) (k : String) (v : α) :
    List.lookup k (mapSet l k v) = some v := by
  induction l with
  | nil => simp [mapSet, List.lookup]
  | cons p rest ih =>
    obtain ⟨k', v'⟩ := p
    unfold mapSet
    by_cases h : k' = k
    · rw [if_pos h]; simp [List.lookup]
    · rw [if_neg h]
      have hbeq : (k == k') = false := by
        simp only [beq_eq_false_iff_ne, ne_eq]
        exact fun he => h he.symm
      simp [List.lookup, hbeq, ih]

theorem lookup_mapSet_ne {α : Type} (l : List (String × α)) {k k' : String}
    (v : α) (h : k ≠ k') : List.lookup k (mapSet l k' v) = List.lookup k l := by
  have hbeq : (k == k') = false := by
    simp only [beq_eq_false_iff_ne, ne_eq]
    exact h
  induction l with
  | nil => simp [mapSet, List.lookup, hbeq]
  | cons p rest ih =>
    obtain ⟨k₀, v₀⟩ := p
    unfold mapSet
    by_cases h0 : k₀ = k'
    · rw [if_pos h0]
      subst h0
      simp [List.lookup, hbeq]
    · rw [if_neg h0]
      by_cases hk : k = k₀
      · subst hk
        simp [List.lookup]
      · have hbeq0 : (k == k₀) = false := by
          simp only [beq_eq_false_iff_ne, ne_eq]
          exact hk
        simp [List.lookup, hbeq0, ih]

theorem lookup_mapSet_isSome {α : Type} (l : List (String × α)) (k k' : String)
    (v : α) (h : (List.lookup k l).isSome = true) :
    (List.lookup k (mapSet l k' v)).isSome = true := by
  by_cases hk : k = k'
  · subst hk; rw [lookup_mapSet_self]; rfl
  · rw [lookup_mapSet_ne _ _ hk]; exact h

theorem parseLine_labels (i : Nat) (text : List Char) (acc : ParsedDocument) :
    (parseLine i text acc).labels =
      match lineLabel i text with
      | some lb => mapSet acc.labels lb.name lb
      | none => acc.labels := by
  unfold parseLine
  cases lineLabel i text <;> cases lineCommand i text <;> rfl

theorem parseLine_commands (i : Nat) (text : List Char) (acc : ParsedDocument) :
    (parseLine i text acc).commands =
      acc.commands ++ (lineCommand i text).toList := by
  unfold parseLine
  cases lineLabel i text <;> cases lineCommand i text <;> simp

theorem parseGo_cons (i : Nat) (acc : ParsedDocument) (ln : String)
    (rest : List String) :
    parseGo i acc (ln :: rest) = parseGo (i + 1) (parseLine i ln.data acc) rest :=
  rfl

theorem parseGo_append (acc : ParsedDocument) (xs ys : List String) :
    ∀ i, parseGo i acc (xs ++ ys) = parseGo (i + xs.length) (parseGo i acc xs) ys := by
  induction xs generalizing acc with
  | nil => intro i; simp [parseGo]
  | cons x xs ih =>
    intro i
    rw [List.cons_append, parseGo_cons, parseGo_cons, ih]
    congr 1
    simp
    omega

theorem lineLabel_of_labelMatch {text : List Char} {name : String} (i : Nat)
    (h : labelMatch text = some name) :
    lineLabel i text = some ⟨name, i, ⟨i, 0, i, name.length + 1⟩⟩ := by
  unfold lineLabel
  rw [if_neg (by simp [labelMatch_skipLine_false h]), h]
  simp [firstIndexOfSub?_zero (labelMatch_isPrefix h)]

theorem lineLabel_name {i : Nat} {text : List Char} {lb : ParsedLabel}
    (h : lineLabel i text = some lb) : labelMatch text = some lb.name := by
  unfold lineLabel at h
  split at h
  · exact absurd h (by simp)
  · cases hm : labelMatch text with
    | none => rw [hm] at h; exact absurd h (by simp)
    | some nm =>
      rw [hm] at h
      simp only [Option.some.injEq] at h
      rw [← h]

theorem parseGo_lookup_label_preserved {name : String} :
    ∀ (post : List String), (∀ l ∈ post, labelMatch (String.data l) ≠ some name) →
    ∀ i acc, List.lookup name (parseGo i acc post).labels =
      List.lookup name acc.labels := by
  intro post
  induction post with
  | nil => intro _ i acc; rfl
  | cons l rest ih =>
    intro hpost i acc
    rw [parseGo_cons, ih (fun x hx => hpost x (List.mem_cons_of_mem _ hx)) _ _,
      parseLine_labels]
    cases hl : lineLabel i l.data with
    | none => rfl
    | some lb =>
      have hne : name ≠ lb.name := by
        intro he
        exact hpost l (List.mem_cons_self _ _) (he ▸ lineLabel_name hl)
      exact lookup_mapSet_ne _ _ hne

theorem parseGo_labels_isSome_mono {name : String} (lines : List String) :
    ∀ i acc, (List.lookup name acc.labels).isSome = true →
      (List.lookup name (parseGo i acc lines).labels).isSome = true := by
  induction lines with
  | nil => intro i acc h; exact h
  | cons l rest ih =>
    intro i acc h
    rw [parseGo_cons]
    apply ih
    rw [parseLine_labels]
    cases hl : lineLabel i l.data with
    | none => exact h
    | some lb => exact lookup_mapSet_isSome _ _ _ _ h

theorem rtrim_append_singleton {d : Char} (hd : isWsChar d = false) :
    ∀ l : List Char, rtrim (l ++ [d]) = l ++ [d] := by
  intro l
  induction l with
  | nil =>
    show rtrim [d] = [d]
    simp [rtrim, hd]
  | cons x xs ih =>
    have h1 : rtrim (x :: (xs ++ [d])) = x :: rtrim (xs ++ [d]) := by
      cases hr : rtrim (xs ++ [d]) with
      | nil => rw [ih] at hr; exact absurd hr (by simp)
      | cons y ys =>
        unfold rtrim
        rw [hr]
    rw [List.cons_append, h1, ih]

theorem trimChars_eq_self_cons_append {c d : Char} (hc : isWsChar c = false)
    (hd : isWsChar d = false) (l : List Char) :
    trimChars (c :: (l ++ [d])) = c :: (l ++ [d]) := by
  rw [trimChars_cons_of_not_ws hc, rtrim_append_singleton hd]

theorem createArgument_value (value : String) (line s e : Nat) :
    (createArgument value line s e).value = value := by
  unfold createArgument
  split <;> first
    | rfl
    | (split <;> first | rfl | (split <;> rfl))

theorem createArgument_quote (v : List Char) (line s e : Nat) :
    createArgument (String.mk ('"' :: v)) line s e =
      ⟨String.mk ('"' :: v), ArgType.string, ⟨line, s, line, e⟩⟩ :=
  rfl

theorem parseArgumentsGo_inString (line : Nat) (sc : Char) :
    ∀ (inner : List Char), (∀ c ∈ inner, c ≠ sc) →
    ∀ (rest : List Char) (pos : Nat) (currentArg : List Char)
      (argStartCol : Nat) (args : List ParsedArgument),
      currentArg ≠ [] →
      parseArgumentsGo line (inner ++ rest) pos currentArg true sc argStartCol args =
        parseArgumentsGo line rest (pos + inner.length) (currentArg ++ inner) true sc
          argStartCol args := by
  intro inner
  induction inner with
  | nil => intro _ rest pos cur a args _; simp
  | cons c cs ih =>
    intro hc rest pos cur a args hcur
    have hne : c ≠ sc := hc c (by simp)
    have hcur' : cur.isEmpty = false := by
      simpa [List.isEmpty_iff] using hcur
    rw [List.cons_append,
      show parseArgumentsGo line (c :: (cs ++ rest)) pos cur true sc a args =
        parseArgumentsGo line (cs ++ rest) (pos + 1) (cur ++ [c]) true sc a args from by
        simp [parseArgumentsGo, hne, hcur']]
    have e1 : pos + (c :: cs).length = (pos + 1) + cs.length := by
      simp; omega
    have e2 : cur ++ (c :: cs) = (cur ++ [c]) ++ cs := by simp
    rw [e1, e2]
    exact ih (fun x hx => hc x (by simp [hx])) rest (pos + 1) (cur ++ [c]) a args
      (by simp)

theorem parseArguments_quoted (line startCol : Nat) (inner : List Char)
    (h : ∀ c ∈ inner, c ≠ '"') :
    parseArguments ('"' :: (inner ++ ['"'])) line startCol =
      [⟨String.mk ('"' :: (inner ++ ['"'])), ArgType.string,
        ⟨line, startCol, line, startCol + inner.length + 2⟩⟩] := by
  have hq : isWsChar '"' = false := by decide
  have htrim : trimChars ('"' :: (inner ++ ['"'])) = '"' :: (inner ++ ['"']) :=
    trimChars_eq_self_cons_append hq hq inner
  unfold parseArguments
  rw [if_neg (by simp [htrim])]
  rw [show parseArgumentsGo line ('"' :: (inner ++ ['"'])) startCol [] false ' '
        startCol [] =
      parseArgumentsGo line (inner ++ ['"']) (startCol + 1) ['"'] true '"'
        startCol [] from by
    simp [parseArgumentsGo]]
  rw [parseArgumentsGo_inString line '"' inner h ['"'] (startCol + 1) ['"']
    startCol [] (by simp)]
  simp only [List.singleton_append]
  rw [show parseArgumentsGo line ['"'] (startCol + 1 + inner.length) ('"' :: inner)
        true '"' startCol [] =
      parseArgumentsGo line [] (startCol + 1 + inner.length + 1)
        (('"' :: inner) ++ ['"']) false '"' startCol [] from by
    simp [parseArgumentsGo]]
  unfold parseArgumentsGo
  have htrim' : trimChars (('"' :: inner) ++ ['"']) = '"' :: (inner ++ ['"']) := by
    rw [List.cons_append]
    exact htrim
  rw [htrim']
  rw [if_neg (by simp)]
  rw [createArgument_quote]
  have heq : startCol + 1 + inner.length + 1 = startCol + inner.length + 2 := by
    omega
  rw [heq]
  rfl

theorem parseArgumentsGo_values (line : Nat) :
    ∀ (text : List Char) (pos : Nat) (cur : List Char) (inS : Bool) (sc : Char)
      (a : Nat) (args : List ParsedArgument),
      (parseArgumentsGo line text pos cur inS sc a args).map (fun x => x.value) =
        argValuesGo text cur inS sc (args.map (fun x => x.value)) := by
  intro text
  induction text with
  | nil =>
    intro pos cur inS sc a args
    unfold parseArgumentsGo argValuesGo
    by_cases h : (trimChars cur).isEmpty = true
    · simp [h]
    · simp [h, createArgument_value]
  | cons c rest ih =>
    intro pos cur inS sc a args
    unfold parseArgumentsGo argValuesGo
    by_cases h1 : (!inS && (c = '"' || c = '\'')) = true
    · simp only [h1, if_true]
      exact ih _ _ _ _ _ _
    · simp only [h1, if_false]
      by_cases h2 : (inS && c = sc) = true
      · simp only [h2, if_true]
        exact ih _ _ _ _ _ _
      · simp only [h2, if_false]
        by_cases h3 : (!inS && c = ',') = true
        · simp only [h1, h2, h3, if_true, if_false, Bool.false_eq_true]
          rw [ih]
          by_cases h4 : (trimChars cur).isEmpty = true
          · simp [h4]
          · simp [h4, createArgument_value]
        · simp only [h3, if_false]
          exact ih _ _ _ _ _ _

theorem isPlainChar_elim {c : Char} (h : isPlainChar c = true) :
    c ≠ ',' ∧ c ≠ '"' ∧ c ≠ '\'' := by
  unfold isPlainChar at h
  simp only [Bool.and_eq_true, decide_eq_true_eq, ne_eq] at h
  exact ⟨h.1.1, h.1.2, h.2⟩

theorem argValuesGo_plain_seg (sc : Char) :
    ∀ (seg : List Char), (∀ c ∈ seg, isPlainChar c = true) →
    ∀ (rest cur : List Char) (acc : List String),
      argValuesGo (seg ++ rest) cur false sc acc =
        argValuesGo rest (cur ++ seg) false sc acc := by
  intro seg
  induction seg with
  | nil => intro _ rest cur acc; simp
  | cons c cs ih =>
    intro hplain rest cur acc
    obtain ⟨hcomma, hq1, hq2⟩ := isPlainChar_elim (hplain c (by simp))
    rw [List.cons_append,
      show argValuesGo (c :: (cs ++ rest)) cur false sc acc =
        argValuesGo (cs ++ rest) (cur ++ [c]) false sc acc from by
        simp [argValuesGo, hcomma, hq1, hq2],
      show cur ++ (c :: cs) = (cur ++ [c]) ++ cs from by simp]
    exact ih (fun x hx => hplain x (by simp [hx])) rest (cur ++ [c]) acc

theorem argValuesGo_join (sc : Char) :
    ∀ (segs : List (List Char)), (∀ seg ∈ segs, ∀ c ∈ seg, isPlainChar c = true) →
    ∀ (cur : List Char) (acc : List String),
      argValuesGo (joinCommas segs) cur false sc acc =
        emitVals acc (consHead cur segs) := by
  intro segs
  induction segs with
  | nil =>
    intro _ cur acc
    show argValuesGo [] cur false sc acc = emitVals acc [cur]
    by_cases h : (trimChars cur).isEmpty = true <;> simp [argValuesGo, emitVals, h]
  | cons s rest ih =>
    intro hplain cur acc
    cases rest with
    | nil =>
      show argValuesGo (joinCommas [s]) cur false sc acc = emitVals acc [cur ++ s]
      have hs : joinCommas [s] = s ++ [] := by simp [joinCommas]
      rw [hs, argValuesGo_plain_seg sc s (hplain s (by simp)) [] cur acc]
      by_cases h : (trimChars (cur ++ s)).isEmpty = true <;>
        simp [argValuesGo, emitVals, h]
    | cons s2 rest2 =>
      show argValuesGo (joinCommas (s :: s2 :: rest2)) cur false sc acc =
        emitVals acc ((cur ++ s) :: s2 :: rest2)
      have hjoin : joinCommas (s :: s2 :: rest2) =
          s ++ (',' :: joinCommas (s2 :: rest2)) := rfl
      rw [hjoin, argValuesGo_plain_seg sc s (hplain s (by simp)) _ cur acc,
        show argValuesGo (',' :: joinCommas (s2 :: rest2)) (cur ++ s) false sc acc =
          argValuesGo (joinCommas (s2 :: rest2)) [] false sc
            (if (trimChars (cur ++ s)).isEmpty then acc
             else acc ++ [String.mk (trimChars (cur ++ s))]) from by
          simp [argValuesGo],
        ih (fun x hx => hplain x (by simp [hx])) [] _]
      show emitVals _ (([] ++ s2) :: rest2) = emitVals acc ((cur ++ s) :: s2 :: rest2)
      rw [List.nil_append]
      rfl

theorem mem_dropWhile_of_not {p : Char → Bool} {c : Char} (hc : p c = false) :
    ∀ l : List Char, c ∈ l → c ∈ l.dropWhile p := by
  intro l
  induction l with
  | nil => intro h; exact absurd h (by simp)
  | cons x xs ih =>
    intro h
    by_cases hp : p x = true
    · rw [List.dropWhile_cons_of_pos hp]
      rcases List.mem_cons.mp h with he | hm
      · subst he; rw [hc] at hp; exact absurd hp (by simp)
      · exact ih hm
    · rw [List.dropWhile_cons_of_neg (by simpa using hp)]
      exact h

theorem mem_rtrim {c : Char} (hc : isWsChar c = false) :
    ∀ l : List Char, c ∈ l → c ∈ rtrim l := by
  intro l
  induction l with
  | nil => intro h; exact absurd h (by simp)
  | cons x xs ih =>
    intro h
    rcases List.mem_cons.mp h with he | hm
    · subst he
      rw [rtrim_cons_of_not_ws hc]
      exact List.mem_cons_self _ _
    · have h2 := ih hm
      cases hr : rtrim xs with
      | nil => rw [hr] at h2; exact absurd h2 (by simp)
      | cons y ys =>
        unfold rtrim
        rw [hr]
        rw [hr] at h2
        exact List.mem_cons_of_mem _ h2

theorem mem_trimChars {c : Char} (hc : isWsChar c = false) {l : List Char}
    (h : c ∈ l) : c ∈ trimChars l :=
  mem_rtrim hc _ (mem_dropWhile_of_not hc _ h)

theorem lineCommand_line {i : Nat} {text : List Char} {c : ParsedCommand}
    (h : lineCommand i text = some c) : c.line = i := by
  unfold lineCommand at h
  split at h
  · exact absurd h (by simp)
  · cases hm : cmdMatch text with
    | none => rw [hm] at h; exact absurd h (by simp)
    | some nm =>
      rw [hm] at h
      have h' := Option.some.inj h
      rw [← h']

theorem parseGo_commands (lines : List String) :
    ∀ i acc, (parseGo i acc lines).commands = acc.commands ++ linesCmds i lines := by
  induction lines with
  | nil => intro i acc; simp [parseGo, linesCmds]
  | cons l rest ih =>
    intro i acc
    rw [parseGo_cons, ih, parseLine_commands]
    show _ = acc.commands ++ ((lineCommand i l.data).toList ++ linesCmds (i + 1) rest)
    rw [List.append_assoc]

theorem linesCmds_line_ge : ∀ (lines : List String) (i : Nat) (c : ParsedCommand),
    c ∈ linesCmds i lines → i ≤ c.line := by
  intro lines
  induction lines with
  | nil => intro i c hc; simp [linesCmds] at hc
  | cons l rest ih =>
    intro i c hc
    simp only [linesCmds, List.mem_append] at hc
    rcases hc with hc | hc
    · cases hl : lineCommand i l.data with
      | none => rw [hl] at hc; simp at hc
      | some c0 =>
        rw [hl] at hc
        simp only [Option.toList_some, List.mem_singleton] at hc
        subst hc
        rw [lineCommand_line hl]
    · have := ih (i + 1) c hc
      omega

theorem linesCmds_filter_line : ∀ (lines : List String) (i j : Nat) (ln : String),
    lines[j]? = some ln →
    (linesCmds i lines).filter (fun c => c.line == i + j) =
      (lineCommand (i + j) ln.data).toList := by
  intro lines
  induction lines with
  | nil => intro i j ln h; simp at h
  | cons l rest ih =>
    intro i j ln hj
    show ((lineCommand i l.data).toList ++ linesCmds (i + 1) rest).filter
        (fun c => c.line == i + j) = _
    rw [List.filter_append]
    cases j with
    | zero =>
      simp only [List.getElem?_cons_zero, Option.some.injEq] at hj
      subst hj
      have h2 : (linesCmds (i + 1) rest).filter (fun c => c.line == i + 0) = [] := by
        rw [List.filter_eq_nil_iff]
        intro c hc
        have := linesCmds_line_ge rest (i + 1) c hc
        simp only [beq_iff_eq]
        omega
      have h1 : (lineCommand i l.data).toList.filter (fun c => c.line == i + 0) =
          (lineCommand i l.data).toList := by
        cases hl : lineCommand i l.data with
        | none => rfl
        | some c0 =>
          have hc0 := lineCommand_line hl
          have hb : (c0.line == i) = true := by
            rw [hc0]; simp
          simp [List.filter, Nat.add_zero, hb]
      rw [h1, h2, List.append_nil, Nat.add_zero]
    | succ j' =>
      have h1 : (lineCommand i l.data).toList.filter
          (fun c => c.line == i + (j' + 1)) = [] := by
        cases hl : lineCommand i l.data with
        | none => rfl
        | some c0 =>
          have hc0 := lineCommand_line hl
          have hb : (c0.line == i + (j' + 1)) = false := by
            rw [hc0]
            simp only [beq_eq_false_iff_ne, ne_eq]
            omega
          simp [List.filter, hb]
      rw [h1, List.nil_append,
        show i + (j' + 1) = (i + 1) + j' from by omega]
      exact ih (i + 1) j' ln (by simpa using hj)

theorem parseDocument_commands_filter {lines : List String} {j : Nat} {ln : String}
    (hj : lines[j]? = some ln) :
    (parseDocument lines).commands.filter (fun c => c.line == j) =
      (lineCommand j ln.data).toList := by
  unfold parseDocument
  rw [parseGo_commands]
  show (([] : List ParsedCommand) ++ linesCmds 0 lines).filter _ = _
  rw [List.nil_append]
  simpa using linesCmds_filter_line lines 0 j ln hj

theorem cmdMatchFrom_isPrefix : ∀ (text : List Char) (i p e : Nat) (nm : String),
    cmdMatchFrom text i = some (p, e, nm) →
    i ≤ p ∧ nm.data.isPrefixOf (text.drop (p - i)) = true := by
  intro text
  induction text with
  | nil => intro i p e nm h; simp [cmdMatchFrom] at h
  | cons c rest ih =>
    intro i p e nm h
    unfold cmdMatchFrom at h
    by_cases hc : isCmdStartChar c = true
    · rw [if_pos hc] at h
      split at h
      · simp only [Option.some.injEq, Prod.mk.injEq] at h
        obtain ⟨hp, -, hnm⟩ := h
        subst hp
        subst hnm
        refine ⟨Nat.le_refl _, ?_⟩
        rw [Nat.sub_self, List.drop_zero]
        show (c :: rest.takeWhile isCmdChar).isPrefixOf (c :: rest) = true
        rw [List.isPrefixOf_iff_prefix]
        exact List.cons_prefix_cons.mpr ⟨rfl, List.takeWhile_prefix _⟩
      · obtain ⟨hle, hpre⟩ := ih (i + 1) p e nm h
        refine ⟨by omega, ?_⟩
        rw [show p - i = (p - (i + 1)) + 1 from by omega, List.drop_succ_cons]
        exact hpre
    · rw [if_neg hc] at h
      obtain ⟨hle, hpre⟩ := ih (i + 1) p e nm h
      refine ⟨by omega, ?_⟩
      rw [show p - i = (p - (i + 1)) + 1 from by omega, List.drop_succ_cons]
      exact hpre

theorem firstIndexOfSubAux_le : ∀ (text pat : List Char) (i k : Nat),
    pat.isPrefixOf (text.drop k) = true →
    ∃ s, firstIndexOfSubAux pat text i = some s ∧ s ≤ i + k := by
  intro text
  induction text with
  | nil =>
    intro pat i k h
    rw [List.drop_nil] at h
    cases pat with
    | nil => exact ⟨i, by simp [firstIndexOfSubAux], by omega⟩
    | cons p ps => simp [List.isPrefixOf] at h
  | cons c rest ih =>
    intro pat i k h
    by_cases hp : pat.isPrefixOf (c :: rest) = true
    · exact ⟨i, by simp [firstIndexOfSubAux, hp], by omega⟩
    · cases k with
      | zero => rw [List.drop_zero] at h; exact absurd h hp
      | succ k' =>
        rw [List.drop_succ_cons] at h
        obtain ⟨s, hs, hle⟩ := ih pat (i + 1) k' h
        refine ⟨s, ?_, by omega⟩
        unfold firstIndexOfSubAux
        rw [if_neg hp]
        exact hs

theorem firstIndexOfSub?_exists_le {text pat : List Char} {k : Nat}
    (h : pat.isPrefixOf (text.drop k) = true) :
    ∃ s, firstIndexOfSub? text pat = some s ∧ s ≤ k := by
  obtain ⟨s, hs, hle⟩ := firstIndexOfSubAux_le text pat 0 k h
  exact ⟨s, hs, by omega⟩

theorem cmdStart_ne_paren {c : Char} (h : isCmdStartChar c = true) : c ≠ '(' :=
  fun he => by subst he; exact absurd h (by decide)

theorem cmdChar_ne_paren {c : Char} (h : isCmdChar c = true) : c ≠ '(' :=
  fun he => by subst he; exact absurd h (by decide)

theorem ws_ne_paren {c : Char} (h : isWsChar c = true) : c ≠ '(' :=
  fun he => by subst he; exact absurd h (by decide)

theorem cmdStart_not_ws {c : Char} (h : isCmdStartChar c = true) :
    isWsChar c = false := by
  cases hws : isWsChar c
  · rfl
  · exfalso
    unfold isWsChar at hws
    simp only [Bool.or_eq_true, decide_eq_true_eq] at hws
    rcases hws with ((((h1 | h1) | h1) | h1) | h1) | h1 <;> subst h1 <;>
      exact absurd h (by decide)

theorem cmdChar_not_ws {c : Char} (h : isCmdChar c = true) :
    isWsChar c = false := by
  cases hws : isWsChar c
  · rfl
  · exfalso
    unfold isWsChar at hws
    simp only [Bool.or_eq_true, decide_eq_true_eq] at hws
    rcases hws with ((((h1 | h1) | h1) | h1) | h1) | h1 <;> subst h1 <;>
      exact absurd h (by decide)

theorem removeFirstParen_append {l rest : List Char} (h : ∀ c ∈ l, c ≠ '(') :
    removeFirstParen (l ++ '(' :: rest) = l ++ rest := by
  induction l with
  | nil => simp [removeFirstParen]
  | cons x xs ih =>
    have hx : x ≠ '(' := h x (by simp)
    simp only [List.cons_append, removeFirstParen, if_neg hx]
    exact congrArg (fun t => x :: t) (ih (fun c hc => h c (by simp [hc])))

theorem rtrim_append_single_ws {w : Char} (hw : isWsChar w = true) :
    ∀ l : List Char, rtrim (l ++ [w]) = rtrim l := by
  intro l
  induction l with
  | nil =>
    show rtrim [w] = rtrim []
    simp [rtrim, hw]
  | cons x xs ih =>
    show rtrim (x :: (xs ++ [w])) = rtrim (x :: xs)
    unfold rtrim
    rw [ih]

theorem rtrim_append_ws : ∀ (ws : List Char), (∀ c ∈ ws, isWsChar c = true) →
    ∀ l : List Char, rtrim (l ++ ws) = rtrim l := by
  intro ws
  induction ws with
  | nil => intro _ l; simp
  | cons w ws' ih =>
    intro h l
    rw [show l ++ (w :: ws') = (l ++ [w]) ++ ws' from by simp,
      ih (fun c hc => h c (by simp [hc])) (l ++ [w]),
      rtrim_append_single_ws (h w (by simp)) l]

theorem rtrim_eq_self_of_no_ws : ∀ l : List Char,
    (∀ c ∈ l, isWsChar c = false) → rtrim l = l := by
  intro l
  induction l with
  | nil => intro _; rfl
  | cons x xs ih =>
    intro h
    rw [rtrim_cons_of_not_ws (h x (by simp)), ih (fun c hc => h c (by simp [hc]))]

theorem trimChars_name_ws {c0 : Char} {nmTail ws : List Char}
    (hc0 : isCmdStartChar c0 = true) (htail : ∀ c ∈ nmTail, isCmdChar c = true)
    (hws : ∀ c ∈ ws, isWsChar c = true) :
    trimChars ((c0 :: nmTail) ++ ws) = c0 :: nmTail := by
  unfold trimChars ltrim
  rw [List.cons_append, List.dropWhile_cons_of_neg (by simp [cmdStart_not_ws hc0])]
  show rtrim ((c0 :: nmTail) ++ ws) = c0 :: nmTail
  rw [rtrim_append_ws ws hws]
  apply rtrim_eq_self_of_no_ws
  intro c hc
  rcases List.mem_cons.mp hc with he | hm
  · subst he; exact cmdStart_not_ws hc0
  · exact cmdChar_not_ws (htail c hm)

theorem cmdMatchFrom_structure : ∀ (text : List Char) (i s e : Nat) (nm : String),
    cmdMatchFrom text i = some (s, e, nm) →
    ∃ c0 nmTail ws tail',
      nm.data = c0 :: nmTail ∧ isCmdStartChar c0 = true ∧
      (∀ c ∈ nmTail, isCmdChar c = true) ∧ (∀ c ∈ ws, isWsChar c = true) ∧
      text.drop (s - i) = (nm.data ++ ws) ++ '(' :: tail' ∧
      e - s = nm.data.length + ws.length + 1 := by
  intro text
  induction text with
  | nil => intro i s e nm h; simp [cmdMatchFrom] at h
  | cons c rest ih =>
    intro i s e nm h
    unfold cmdMatchFrom at h
    by_cases hc : isCmdStartChar c = true
    · rw [if_pos hc] at h
      split at h
      · rename_i tail' heq
        simp only [Option.some.injEq, Prod.mk.injEq] at h
        obtain ⟨hs, he, hnm⟩ := h
        subst hs
        subst hnm
        refine ⟨c, rest.takeWhile isCmdChar,
          (rest.dropWhile isCmdChar).takeWhile isWsChar, tail', rfl, hc,
          fun x hx => List.mem_takeWhile_imp hx,
          fun x hx => List.mem_takeWhile_imp hx, ?_, ?_⟩
        · rw [Nat.sub_self, List.drop_zero]
          show c :: rest = _
          conv_lhs =>
            rw [← List.takeWhile_append_dropWhile (p := isCmdChar) (l := rest),
              ← List.takeWhile_append_dropWhile (p := isWsChar)
                (l := rest.dropWhile isCmdChar), heq]
          simp
        · subst he
          simp only [String.length]
          simp only [List.length_cons]
          omega
      · obtain ⟨c0, nmTail, ws, tail', hdata, hc0, htail, hws, hdrop, hlen⟩ :=
          ih (i + 1) s e nm h
        have hle := (cmdMatchFrom_isPrefix rest (i + 1) s e nm h).1
        refine ⟨c0, nmTail, ws, tail', hdata, hc0, htail, hws, ?_, hlen⟩
        rw [show s - i = (s - (i + 1)) + 1 from by omega, List.drop_succ_cons]
        exact hdrop
    · rw [if_neg hc] at h
      obtain ⟨c0, nmTail, ws, tail', hdata, hc0, htail, hws, hdrop, hlen⟩ :=
        ih (i + 1) s e nm h
      have hle := (cmdMatchFrom_isPrefix rest (i + 1) s e nm h).1
      refine ⟨c0, nmTail, ws, tail', hdata, hc0, htail, hws, ?_, hlen⟩
      rw [show s - i = (s - (i + 1)) + 1 from by omega, List.drop_succ_cons]
      exact hdrop

theorem cmdMatchesGo_eq_map_fst : ∀ (fuel : Nat) (text : List Char),
    cmdMatchesGo fuel text = (cmdMatchesFullGo fuel text).map Prod.fst := by
  intro fuel
  induction fuel with
  | zero => intro text; rfl
  | succ f ih =>
    intro text
    unfold cmdMatchesGo cmdMatchesFullGo
    cases h : cmdMatchFrom text 0 with
    | none => rfl
    | some r =>
      obtain ⟨s, e, nm⟩ := r
      simp [ih]

theorem cmdMatchesFullGo_name : ∀ (fuel : Nat) (text m : List Char) (nm : String),
    (m, nm) ∈ cmdMatchesFullGo fuel text →
    String.mk (trimChars (removeFirstParen m)) = nm := by
  intro fuel
  induction fuel with
  | zero => intro text m nm h; simp [cmdMatchesFullGo] at h
  | succ f ih =>
    intro text m nm hmem
    unfold cmdMatchesFullGo at hmem
    cases hcm : cmdMatchFrom text 0 with
    | none => rw [hcm] at hmem; simp at hmem
    | some r =>
      obtain ⟨s, e, nm'⟩ := r
      rw [hcm] at hmem
      simp only [List.mem_cons, Prod.mk.injEq] at hmem
      rcases hmem with ⟨hm, hnm⟩ | hmem
      · subst hm
        rw [hnm]
        obtain ⟨c0, nmTail, ws, tail', hdata, hc0, htail, hws, hdrop, hlen⟩ :=
          cmdMatchFrom_structure text 0 s e nm' hcm
        rw [Nat.sub_zero] at hdrop
        rw [hdrop, hlen,
          show nm'.data.length + ws.length + 1 = (nm'.data ++ ws).length + 1 from by
            simp,
          List.take_append 1,
          show List.take 1 ('(' :: tail') = '(' :: ([] : List Char) from rfl]
        have hnoparen : ∀ c ∈ nm'.data ++ ws, c ≠ '(' := by
          intro c hcmem
          rcases List.mem_append.mp hcmem with hin | hin
          · rw [hdata] at hin
            rcases List.mem_cons.mp hin with he | hmm
            · subst he; exact cmdStart_ne_paren hc0
            · exact cmdChar_ne_paren (htail c hmm)
          · exact ws_ne_paren (hws c hin)
        rw [removeFirstParen_append hnoparen, List.append_nil, hdata,
          trimChars_name_ws hc0 htail hws, ← hdata]
      · exact ih (text.drop e) m nm hmem

/-! ## Theorems -/

/-- C8 counterexample: `getActiveContext` diverges from the claim's query
(`activeCallContextSpec`, written from the claim's words) at three concrete
inputs.  For `_TALKMSG("a,b", ` (cursor at the end) the code returns
argument index 2, counting the comma inside the quoted string, while the
claim demands the top-level count 1.  For `A(B(x), ` the cursor is inside
the open call `A(` (its parenthesis is never closed), so the claim demands
`(A, 1)`, but the code tests only the *last* open parenthesis — `B(`'s,
which is closed — and returns none.  For `A(1) x(` the cursor is inside no
open `COMMAND(` call, so the claim demands none, but the code pairs the
last match `A(` with the stray last parenthesis and returns `(A, 0)`. -/
theorem active_context_claim_false :
    (getActiveContext "_TALKMSG(\"a,b\", " 16 = some ("_TALKMSG", 2) ∧
      activeCallContextSpec "_TALKMSG(\"a,b\", " 16 = some ("_TALKMSG", 1)) ∧
    (getActiveContext "A(B(x), " 8 = none ∧
      activeCallContextSpec "A(B(x), " 8 = some ("A", 1)) ∧
    (getActiveContext "A(1) x(" 7 = some ("A", 0) ∧
      activeCallContextSpec "A(1) x(" 7 = none) :=
  ⟨⟨by decide, by decide⟩, ⟨by decide, by decide⟩, ⟨by decide, by decide⟩⟩

/-- C8 amended: for every cursor position, when the line prefix before the
cursor contains no `COMMAND(` match the query returns none; and whenever it
contains matches — the last being the one with captured name `nm` — and the
last open-parenthesis of the prefix sits at column `op`, the query returns
none if a close-parenthesis occurs after column `op`, and otherwise returns
`nm` with an argument index equal to the count of *all* commas (commas
inside quoted strings included) after column `op`.  In particular for
`_TALKMSG("a", ` with the cursor at the end it returns `_TALKMSG` with
argument index 1, and for `_TALKMSG("a,b", ` it returns index 2. -/
theorem active_context_spec :
    (getActiveContext "_TALKMSG(\"a\", " 14 = some ("_TALKMSG", 1)) ∧
    (getActiveContext "_TALKMSG(\"a,b\", " 16 = some ("_TALKMSG", 2)) ∧
    (∀ (s : String) (n : Nat),
      (cmdMatchFrom ((String.data s).take n) 0 = none →
        getActiveContext s n = none) ∧
      (∀ (ms : List (List Char × String)) (m : List Char) (nm : String) (op : Nat),
        cmdMatchesFull ((String.data s).take n) = ms ++ [(m, nm)] →
        lastIndexOfChar ((String.data s).take n) '(' = some op →
        getActiveContext s n =
          if (((String.data s).take n).drop op).contains ')' then none
          else
            some (nm,
              ((((String.data s).take n).drop op).filter
                (fun c => c = ',')).length))) := by
  refine ⟨by decide, by decide, ?_⟩
  intro s n
  constructor
  · intro h
    have hmatches : cmdMatches ((String.data s).take n) = [] := by
      unfold cmdMatches cmdMatchesGo
      rw [h]
    unfold getActiveContext
    simp only [hmatches]
    rfl
  · intro ms m nm op hfull hop
    have hmap : cmdMatches ((String.data s).take n) =
        (cmdMatchesFull ((String.data s).take n)).map Prod.fst :=
      cmdMatchesGo_eq_map_fst _ _
    have hlast : (cmdMatches ((String.data s).take n)).getLast? = some m := by
      rw [hmap, hfull]
      simp only [List.map_append, List.map_cons, List.map_nil]
      exact List.getLast?_concat _
    have hname : String.mk (trimChars (removeFirstParen m)) = nm := by
      apply cmdMatchesFullGo_name (((String.data s).take n).length + 1)
        ((String.data s).take n)
      show (m, nm) ∈ cmdMatchesFull ((String.data s).take n)
      rw [hfull]
      simp
    unfold getActiveContext
    simp only [hlast, hop, Option.getD_some]
    show (if ((((String.data s).take n).drop op).contains ')') = true then none
        else some (String.mk (trimChars (removeFirstParen m)),
          ((((String.data s).take n).drop op).filter (fun c => c = ',')).length)) =
      _
    rw [hname]

/-- Witness for `active_context_spec`: `hello` has no command-open match so
the query reports none, and on `_TALKMSG("a", ` (single match `_TALKMSG(`,
last open paren at column 8, no close paren after it) the general clause
yields the concrete answer. -/
theorem active_context_spec_witness :
    (getActiveContext "hello" 5 = none) ∧
    (getActiveContext "_TALKMSG(\"a\", " 14 =
      if (((String.data "_TALKMSG(\"a\", ").take 14).drop 8).contains ')' then none
      else
        some ("_TALKMSG",
          ((((String.data "_TALKMSG(\"a\", ").take 14).drop 8).filter
            (fun c => c = ',')).length)) :=
  ⟨(active_context_spec.2.2 "hello" 5).1 (by decide),
   (active_context_spec.2.2 "_TALKMSG(\"a\", " 14).2 [] (String.data "_TALKMSG(")
     "_TALKMSG" 8 (by decide) (by decide)⟩

/-- C5: a comma inside a matching pair of quote characters does not
separate arguments: parsing `_TALKMSG("a, b")` yields exactly one parsed
argument, of kind quoted-string, with value `"a, b"` (quotes retained); and
in general a quoted token `"…"` whose inside contains no double quote — but
may contain commas — is split off as a single quoted-string argument. -/
theorem quoted_comma_single_argument :
    ((parseDocument ["_TALKMSG(\"a, b\")"]).commands =
      [⟨"_TALKMSG", 0, 0, [⟨"\"a, b\"", ArgType.string, ⟨0, 9, 0, 15⟩⟩],
        ⟨0, 0, 0, 16⟩⟩]) ∧
    (∀ (line startCol : Nat) (inner : List Char), (∀ c ∈ inner, c ≠ '"') →
      parseArguments ('"' :: (inner ++ ['"'])) line startCol =
        [⟨String.mk ('"' :: (inner ++ ['"'])), ArgType.string,
          ⟨line, startCol, line, startCol + inner.length + 2⟩⟩]) :=
  ⟨by decide, fun line startCol inner h => parseArguments_quoted line startCol inner h⟩

/-- Witness for `quoted_comma_single_argument`: the raw argument text
`"a, b"` parses to the single quoted-string argument. -/
theorem quoted_comma_single_argument_witness :
    parseArguments ('"' :: (['a', ',', ' ', 'b'] ++ ['"'])) 0 9 =
      [⟨String.mk ('"' :: (['a', ',', ' ', 'b'] ++ ['"'])), ArgType.string,
        ⟨0, 9, 0, 15⟩⟩] :=
  quoted_comma_single_argument.2 0 9 ['a', ',', ' ', 'b'] (by decide)

/-- C9: a segment between top-level commas that is empty or whitespace-only
contributes no parsed argument: `CMD(a,,b)` and `CMD(a, ,b)` each yield
exactly the two arguments `a`, `b` (so `b` sits at index 1, one position
below its written slot); in general, splitting comma-joined quote-free
segments yields exactly the trimmed non-empty segments, in order. -/
theorem empty_segment_dropped :
    ((parseDocument ["CMD(a,,b)"]).commands.map
        (fun c => c.args.map (fun a => a.value)) = [["a", "b"]]) ∧
    ((parseDocument ["CMD(a, ,b)"]).commands.map
        (fun c => c.args.map (fun a => a.value)) = [["a", "b"]]) ∧
    (∀ (line startCol : Nat) (segs : List (List Char)),
      (∀ seg ∈ segs, ∀ c ∈ seg, isPlainChar c = true) →
      (parseArguments (joinCommas segs) line startCol).map (fun a => a.value) =
        emitVals [] segs) := by
  refine ⟨by decide, by decide, ?_⟩
  intro line startCol segs hplain
  unfold parseArguments
  by_cases hguard : (trimChars (joinCommas segs)).isEmpty = true
  · rw [if_pos hguard]
    cases segs with
    | nil => rfl
    | cons s rest =>
      cases rest with
      | nil =>
        have hs : (trimChars s).isEmpty = true := hguard
        show ([] : List ParsedArgument).map (fun a => a.value) = emitVals [] [s]
        simp [emitVals, hs]
      | cons s2 rest2 =>
        exfalso
        have hmem : ',' ∈ joinCommas (s :: s2 :: rest2) := by
          show ',' ∈ s ++ (',' :: joinCommas (s2 :: rest2))
          simp
        have htm := mem_trimChars (by decide) hmem
        rw [List.isEmpty_iff] at hguard
        rw [hguard] at htm
        exact absurd htm (by simp)
  · rw [if_neg hguard]
    rw [parseArgumentsGo_values]
    simp only [List.map_nil]
    rw [argValuesGo_join ' ' segs hplain [] []]
    cases segs with
    | nil => exact absurd rfl hguard
    | cons s rest =>
      show emitVals [] (([] ++ s) :: rest) = emitVals [] (s :: rest)
      rw [List.nil_append]

/-- Witness for `empty_segment_dropped`: the segments `a`, empty, `b`
joined by commas yield exactly the two values `a` and `b`. -/
theorem empty_segment_dropped_witness :
    (parseArguments (joinCommas [['a'], [], ['b']]) 0 4).map (fun a => a.value) =
      emitVals [] [['a'], [], ['b']] :=
  empty_segment_dropped.2.2 0 4 [['a'], [], ['b']] (by decide)

/-- C7 counterexample: on the line `JUMP JUMP(1)` the regex match (the
recognized command invocation) starts at column 5, but the produced
command's range starts at column 0 — the first occurrence of the text
`JUMP` in the line — so the claim that the range starts at the matched
command name's start column is false. -/
theorem command_range_matched_start_false :
    (parseDocument ["JUMP JUMP(1)"]).commands.map (fun c => c.range.startCol) =
      [0] ∧
    cmdMatchPos (String.data "JUMP JUMP(1)") = some 5 ∧ (0 : Nat) ≠ 5 :=
  ⟨by decide, by decide, by decide⟩

/-- C7 amended: a non-skipped line with a command-invocation match produces
exactly one parsed command for that line; its source range starts at the
first occurrence in the line of the matched command name's text — a column
at or before the matched occurrence — and ends at the close-parenthesis
(located by depth counting from the first open-parenthesis at or after the
range start) inclusive, or at the end of the line when unterminated. -/
theorem command_range_spec :
    ∀ (lines : List String) (j : Nat) (ln : String) (p e : Nat) (nm : String),
      lines[j]? = some ln → skipLine ln.data = false →
      cmdMatchFrom ln.data 0 = some (p, e, nm) →
      ∃ c s,
        ((parseDocument lines).commands.filter (fun k => k.line == j) = [c]) ∧
        c.name = nm ∧
        firstIndexOfSub? ln.data nm.data = some s ∧ s ≤ p ∧
        c.range.startLine = j ∧ c.range.endLine = j ∧ c.range.startCol = s ∧
        c.range.endCol =
          (if findMatchingParen ln.data ((indexOfCharFrom ln.data '(' s).getD 0) > 0
           then (findMatchingParen ln.data
              ((indexOfCharFrom ln.data '(' s).getD 0)).toNat + 1
           else ln.data.length) := by
  intro lines j ln p e nm hj hskip hmatch
  have hcm : cmdMatch ln.data = some nm := by
    unfold cmdMatch
    rw [hmatch]
    rfl
  obtain ⟨-, hpre⟩ := cmdMatchFrom_isPrefix ln.data 0 p e nm hmatch
  rw [Nat.sub_zero] at hpre
  obtain ⟨s, hs, hsp⟩ := firstIndexOfSub?_exists_le hpre
  have hlc : ∃ c, lineCommand j ln.data = some c ∧ c.name = nm ∧
      c.range = ⟨j, s, j,
        if findMatchingParen ln.data ((indexOfCharFrom ln.data '(' s).getD 0) > 0
        then (findMatchingParen ln.data
            ((indexOfCharFrom ln.data '(' s).getD 0)).toNat + 1
        else ln.data.length⟩ := by
    unfold lineCommand
    rw [if_neg (by simp [hskip]), hcm]
    simp only [hs, Option.getD_some]
    exact ⟨_, rfl, rfl, rfl⟩
  obtain ⟨c, hc, hcname, hcrange⟩ := hlc
  refine ⟨c, s, ?_, hcname, hs, hsp, ?_, ?_, ?_, ?_⟩
  · rw [parseDocument_commands_filter hj, hc]
    rfl
  · rw [hcrange]
  · rw [hcrange]
  · rw [hcrange]
  · rw [hcrange]

/-- Witness for `command_range_spec` at the line `JUMP JUMP(1)` (match at
column 5, name first occurring at column 0). -/
theorem command_range_spec_witness :
    ∃ c s,
      ((parseDocument ["JUMP JUMP(1)"]).commands.filter (fun k => k.line == 0) =
        [c]) ∧
      c.name = "JUMP" ∧
      firstIndexOfSub? (String.data "JUMP JUMP(1)") (String.data "JUMP") =
        some s ∧ s ≤ 5 ∧
      c.range.startLine = 0 ∧ c.range.endLine = 0 ∧ c.range.startCol = s ∧
      c.range.endCol =
        (if findMatchingParen (String.data "JUMP JUMP(1)")
            ((indexOfCharFrom (String.data "JUMP JUMP(1)") '(' s).getD 0) > 0
         then (findMatchingParen (String.data "JUMP JUMP(1)")
            ((indexOfCharFrom (String.data "JUMP JUMP(1)") '(' s).getD 0)).toNat + 1
         else (String.data "JUMP JUMP(1)").length) :=
  command_range_spec ["JUMP JUMP(1)"] 0 "JUMP JUMP(1)" 5 10 "JUMP" rfl (by decide)
    (by decide)

/-- C1: for every parsed command whose name has no entry in the registry,
validation emits exactly one "Unknown command" error diagnostic at that
command's range and emits no arity, argument-type, label-reference or
comparator diagnostics for that command. -/
theorem unknownCommand_unique_error (registry : Registry)
    (labels : List (String × ParsedLabel)) (cmd : ParsedCommand)
    (h : getCommand registry cmd.name = none) :
    diagnosticsFor registry labels cmd =
      [createDiagnostic cmd.range ("Unknown command: " ++ cmd.name)
        DiagnosticSeverity.error] := by
  unfold diagnosticsFor
  rw [h]

/-- Witness for `unknownCommand_unique_error`: an empty registry knows no
command, so the parsed `_FOO(1)` call yields the single unknown-command
error. -/
theorem unknownCommand_unique_error_witness :
    diagnosticsFor [] []
        ⟨"_FOO", 0, 0,
          [⟨"1", ArgType.number, ⟨0, 5, 0, 6⟩⟩], ⟨0, 0, 0, 7⟩⟩ =
      [createDiagnostic ⟨0, 0, 0, 7⟩ "Unknown command: _FOO"
        DiagnosticSeverity.error] :=
  unknownCommand_unique_error [] [] _ rfl

/-- C2: the arity check reports an error "requires at least N" exactly when
the argument count falls short of the number of non-optional slots, a
warning "accepts at most N" exactly when it exceeds the total slot count,
and nothing (hence at most one of the two) otherwise. -/
theorem arity_diagnostic_spec (cmd : ParsedCommand) (cmdDef : Command) :
    (cmd.args.length < (cmdDef.Args.filter (fun a => !a.Optional)).length →
      validateArgumentCount cmd cmdDef =
        some (createDiagnostic cmd.range
          (cmd.name ++ " requires at least " ++
            toString (cmdDef.Args.filter (fun a => !a.Optional)).length ++
            " argument(s), but got " ++ toString cmd.args.length)
          DiagnosticSeverity.error)) ∧
    (cmdDef.Args.length < cmd.args.length →
      validateArgumentCount cmd cmdDef =
        some (createDiagnostic cmd.range
          (cmd.name ++ " accepts at most " ++ toString cmdDef.Args.length ++
            " argument(s), but got " ++ toString cmd.args.length)
          DiagnosticSeverity.warning)) ∧
    ((cmdDef.Args.filter (fun a => !a.Optional)).length ≤ cmd.args.length →
      cmd.args.length ≤ cmdDef.Args.length →
      validateArgumentCount cmd cmdDef = none) := by
  have hle : (cmdDef.Args.filter (fun a => !a.Optional)).length ≤ cmdDef.Args.length :=
    List.length_filter_le _ _
  refine ⟨fun h1 => ?_, fun h2 => ?_, fun h3 h4 => ?_⟩
  · unfold validateArgumentCount
    rw [if_pos h1]
  · unfold validateArgumentCount
    rw [if_neg (by omega), if_pos h2]
  · unfold validateArgumentCount
    rw [if_neg (by omega), if_neg (by omega)]

/-- Witness for `arity_diagnostic_spec`, on a schema with two required and
one optional slot: one supplied argument is an error "requires at least 2",
four are a warning "accepts at most 3", two are accepted silently. -/
theorem arity_diagnostic_spec_witness :
    (validateArgumentCount
        ⟨"_X", 0, 0, [⟨"1", ArgType.number, ⟨0, 3, 0, 4⟩⟩], ⟨0, 0, 0, 5⟩⟩
        ⟨2, "_X", "", false, false,
          [⟨"a", "", [], false⟩, ⟨"b", "", [], false⟩, ⟨"c", "", [], true⟩]⟩ =
      some (createDiagnostic ⟨0, 0, 0, 5⟩
        "_X requires at least 2 argument(s), but got 1" DiagnosticSeverity.error)) ∧
    (validateArgumentCount
        ⟨"_X", 0, 0,
          [⟨"1", ArgType.number, ⟨0, 3, 0, 4⟩⟩, ⟨"2", ArgType.number, ⟨0, 5, 0, 6⟩⟩,
           ⟨"3", ArgType.number, ⟨0, 7, 0, 8⟩⟩, ⟨"4", ArgType.number, ⟨0, 9, 0, 10⟩⟩],
          ⟨0, 0, 0, 11⟩⟩
        ⟨2, "_X", "", false, false,
          [⟨"a", "", [], false⟩, ⟨"b", "", [], false⟩, ⟨"c", "", [], true⟩]⟩ =
      some (createDiagnostic ⟨0, 0, 0, 11⟩
        "_X accepts at most 3 argument(s), but got 4" DiagnosticSeverity.warning)) ∧
    (validateArgumentCount
        ⟨"_X", 0, 0,
          [⟨"1", ArgType.number, ⟨0, 3, 0, 4⟩⟩, ⟨"2", ArgType.number, ⟨0, 5, 0, 6⟩⟩],
          ⟨0, 0, 0, 7⟩⟩
        ⟨2, "_X", "", false, false,
          [⟨"a", "", [], false⟩, ⟨"b", "", [], false⟩, ⟨"c", "", [], true⟩]⟩ =
      none) :=
  ⟨by
      have h := (arity_diagnostic_spec
        ⟨"_X", 0, 0, [⟨"1", ArgType.number, ⟨0, 3, 0, 4⟩⟩], ⟨0, 0, 0, 5⟩⟩
        ⟨2, "_X", "", false, false,
          [⟨"a", "", [], false⟩, ⟨"b", "", [], false⟩, ⟨"c", "", [], true⟩]⟩).1
      exact h (by decide),
   by
      have h := (arity_diagnostic_spec
        ⟨"_X", 0, 0,
          [⟨"1", ArgType.number, ⟨0, 3, 0, 4⟩⟩, ⟨"2", ArgType.number, ⟨0, 5, 0, 6⟩⟩,
           ⟨"3", ArgType.number, ⟨0, 7, 0, 8⟩⟩, ⟨"4", ArgType.number, ⟨0, 9, 0, 10⟩⟩],
          ⟨0, 0, 0, 11⟩⟩
        ⟨2, "_X", "", false, false,
          [⟨"a", "", [], false⟩, ⟨"b", "", [], false⟩, ⟨"c", "", [], true⟩]⟩).2.1
      exact h (by decide),
   by
      have h := (arity_diagnostic_spec
        ⟨"_X", 0, 0,
          [⟨"1", ArgType.number, ⟨0, 3, 0, 4⟩⟩, ⟨"2", ArgType.number, ⟨0, 5, 0, 6⟩⟩],
          ⟨0, 0, 0, 7⟩⟩
        ⟨2, "_X", "", false, false,
          [⟨"a", "", [], false⟩, ⟨"b", "", [], false⟩, ⟨"c", "", [], true⟩]⟩).2.2
      exact h (by decide) (by decide)⟩

theorem parseGo_labels_isSome_decl {name : String} :
    ∀ (lines : List String) (j : Nat) (ln : String), lines[j]? = some ln →
      labelMatch ln.data = some name →
      ∀ i acc, (List.lookup name (parseGo i acc lines).labels).isSome = true := by
  intro lines
  induction lines with
  | nil => intro j ln h; simp at h
  | cons l rest ih =>
    intro j ln hj hm i acc
    cases j with
    | zero =>
      simp only [List.getElem?_cons_zero, Option.some.injEq] at hj
      subst hj
      rw [parseGo_cons]
      apply parseGo_labels_isSome_mono
      rw [parseLine_labels, lineLabel_of_labelMatch i hm]
      rw [lookup_mapSet_self]
      rfl
    | succ j' =>
      rw [parseGo_cons]
      exact ih j' ln (by simpa using hj) hm _ _

/-- C3: the label-reference check on a jump/call command whose label-bearing
argument is present and classified as a quoted string emits an "Undefined
label" error at that argument's range exactly when the quote-stripped name
is absent from the label table; and every name declared as a label anywhere
in the document is present in the table built by `parseDocument`. -/
theorem label_reference_spec :
    (∀ (cmd : ParsedCommand) (labels : List (String × ParsedLabel)) (idx : Nat)
        (arg : ParsedArgument),
      List.lookup cmd.name JUMP_COMMANDS_TABLE = some idx →
      cmd.args[idx]? = some arg → arg.type = ArgType.string →
      validateLabelReference cmd labels =
        (if (List.lookup (stripQuotes arg.value) labels).isSome then none
         else some (createDiagnostic arg.range
            ("Undefined label: " ++ stripQuotes arg.value)
            DiagnosticSeverity.error))) ∧
    (∀ (lines : List String) (j : Nat) (ln : String) (name : String),
      lines[j]? = some ln → labelMatch ln.data = some name →
      (List.lookup name (parseDocument lines).labels).isSome = true) := by
  constructor
  · intro cmd labels idx arg hidx harg hstr
    unfold validateLabelReference
    simp only [hidx, harg, hstr]
    simp
  · intro lines j ln name hj hm
    exact parseGo_labels_isSome_decl lines j ln hj hm 0 _

/-- Witness for `label_reference_spec`: `_JUMP("missing_label")` against an
empty label table is flagged, and parsing `lbl:` followed by
`_JUMP("lbl")` puts `lbl` in the table. -/
theorem label_reference_spec_witness :
    (validateLabelReference
        ⟨"_JUMP", 0, 0,
          [⟨"\"missing_label\"", ArgType.string, ⟨0, 6, 0, 21⟩⟩], ⟨0, 0, 0, 22⟩⟩
        [] =
      some (createDiagnostic ⟨0, 6, 0, 21⟩ "Undefined label: missing_label"
        DiagnosticSeverity.error)) ∧
    ((List.lookup "lbl" (parseDocument ["lbl:", "_JUMP(\"lbl\")"]).labels).isSome
      = true) := by
  constructor
  · rw [label_reference_spec.1
      ⟨"_JUMP", 0, 0,
        [⟨"\"missing_label\"", ArgType.string, ⟨0, 6, 0, 21⟩⟩], ⟨0, 0, 0, 22⟩⟩
      [] 0 ⟨"\"missing_label\"", ArgType.string, ⟨0, 6, 0, 21⟩⟩ rfl rfl rfl]
    decide
  · exact label_reference_spec.2 ["lbl:", "_JUMP(\"lbl\")"] 0 "lbl:" "lbl" rfl
      (by decide)

/-- C6 counterexample: with the document `dup:` / `dup:`, the label table's
entry for `dup` records line 1 — the later declaration replaced the earlier
one, so "first definition wins" is false. -/
theorem duplicate_label_first_wins_false :
    (List.lookup "dup" (parseDocument ["dup:", "dup:"]).labels).map
        (fun lb => lb.line) = some 1 ∧ (1 : Nat) ≠ 0 :=
  ⟨by decide, by decide⟩

/-- C6 amended: when the same label name is declared on several lines, the
label table keeps the *last* declaration: a declaration of `name` with no
later declaration of the same name is the entry the table resolves to,
whatever was declared before it. -/
theorem duplicate_label_last_wins :
    ∀ (pre post : List String) (ln : String) (name : String),
      labelMatch ln.data = some name →
      (∀ l ∈ post, labelMatch (String.data l) ≠ some name) →
      List.lookup name (parseDocument (pre ++ ln :: post)).labels =
        some ⟨name, pre.length, ⟨pre.length, 0, pre.length, name.length + 1⟩⟩ := by
  intro pre post ln name hm hpost
  unfold parseDocument
  rw [parseGo_append _ pre (ln :: post) 0, Nat.zero_add, parseGo_cons,
    parseGo_lookup_label_preserved post hpost, parseLine_labels,
    lineLabel_of_labelMatch pre.length hm]
  exact lookup_mapSet_self _ _ _

/-- Witness for `duplicate_label_last_wins`: in `dup:` / `dup:` the second
declaration (line 1) is the surviving entry. -/
theorem duplicate_label_last_wins_witness :
    List.lookup "dup" (parseDocument ["dup:", "dup:"]).labels =
      some ⟨"dup", 1, ⟨1, 0, 1, 4⟩⟩ := by
  have h := duplicate_label_last_wins ["dup:"] [] "dup:" "dup" (by decide)
    (by simp)
  simpa using h

/-- C10: the line `lbl: _JUMP("x")` contributes both the label `lbl` and the
parsed `_JUMP` command with its quoted-string argument: the label rule and
the command rule apply independently to the same line. -/
theorem label_and_command_same_line :
    (parseDocument ["lbl: _JUMP(\"x\")"]).labels =
      [("lbl", ⟨"lbl", 0, ⟨0, 0, 0, 4⟩⟩)] ∧
    (parseDocument ["lbl: _JUMP(\"x\")"]).commands =
      [⟨"_JUMP", 0, 5, [⟨"\"x\"", ArgType.string, ⟨0, 11, 0, 14⟩⟩],
        ⟨0, 5, 0, 15⟩⟩] := by
  constructor <;> decide

/-- C4: for `_IFVAL_JUMP`/`_IFVAL_CALL`, the comparator check emits exactly
one error (citing the invalid value and the valid set) at argument index 1's
range if and only if the quote-stripped value of that argument is not one of
`GE, GT, LE, LT, EQ, NE`, and emits nothing when the argument is absent. -/
theorem comparator_spec (cmd : ParsedCommand) (cmdDef : Command)
    (hname : cmd.name = "_IFVAL_JUMP" ∨ cmd.name = "_IFVAL_CALL") :
    (∀ arg, cmd.args[1]? = some arg →
      validateComparator cmd cmdDef =
        if stripQuotes arg.value ∈ (["GE", "GT", "LE", "LT", "EQ", "NE"] : List String)
        then none
        else some (createDiagnostic arg.range
          ("Invalid comparator: " ++ stripQuotes arg.value ++
            ". Expected one of: GE, GT, LE, LT, EQ, NE")
          DiagnosticSeverity.error)) ∧
    (cmd.args[1]? = none → validateComparator cmd cmdDef = none) := by
  have hifval : IFVAL_COMMANDS.contains cmd.name = true := by
    rcases hname with h | h <;> simp [IFVAL_COMMANDS, h]
  constructor
  · intro arg harg
    unfold validateComparator
    rw [hifval]
    simp only [Bool.not_true, Bool.false_eq_true, if_false, harg]
    by_cases hmem :
        stripQuotes arg.value ∈ (["GE", "GT", "LE", "LT", "EQ", "NE"] : List String)
    · rw [if_pos hmem, if_pos]
      simpa [VALID_COMPARATORS] using hmem
    · rw [if_neg hmem, if_neg]
      simpa [VALID_COMPARATORS] using hmem
  · intro harg
    unfold validateComparator
    rw [hifval]
    simp [harg]

/-- Witness for `comparator_spec`: `_IFVAL_JUMP(@LOCALWORK1, XX, 5, "x")`
has the invalid comparator `XX` at argument index 1 and is flagged;
`_IFVAL_JUMP(@LOCALWORK1, EQ, 5, "x")` is not. -/
theorem comparator_spec_witness :
    (validateComparator
        ⟨"_IFVAL_JUMP", 0, 0,
          [⟨"@LOCALWORK1", ArgType.work, ⟨0, 12, 0, 23⟩⟩,
           ⟨"XX", ArgType.unknown, ⟨0, 25, 0, 27⟩⟩,
           ⟨"5", ArgType.number, ⟨0, 29, 0, 30⟩⟩,
           ⟨"\"x\"", ArgType.string, ⟨0, 32, 0, 35⟩⟩], ⟨0, 0, 0, 36⟩⟩
        ⟨1, "_IFVAL_JUMP", "", false, false, []⟩ =
      some (createDiagnostic ⟨0, 25, 0, 27⟩
        "Invalid comparator: XX. Expected one of: GE, GT, LE, LT, EQ, NE"
        DiagnosticSeverity.error)) ∧
    (validateComparator
        ⟨"_IFVAL_JUMP", 0, 0,
          [⟨"@LOCALWORK1", ArgType.work, ⟨0, 12, 0, 23⟩⟩,
           ⟨"EQ", ArgType.comparator, ⟨0, 25, 0, 27⟩⟩,
           ⟨"5", ArgType.number, ⟨0, 29, 0, 30⟩⟩,
           ⟨"\"x\"", ArgType.string, ⟨0, 32, 0, 35⟩⟩], ⟨0, 0, 0, 36⟩⟩
        ⟨1, "_IFVAL_JUMP", "", false, false, []⟩ = none) := by
  constructor
  · have h := (comparator_spec
      ⟨"_IFVAL_JUMP", 0, 0,
        [⟨"@LOCALWORK1", ArgType.work, ⟨0, 12, 0, 23⟩⟩,
         ⟨"XX", ArgType.unknown, ⟨0, 25, 0, 27⟩⟩,
         ⟨"5", ArgType.number, ⟨0, 29, 0, 30⟩⟩,
         ⟨"\"x\"", ArgType.string, ⟨0, 32, 0, 35⟩⟩], ⟨0, 0, 0, 36⟩⟩
      ⟨1, "_IFVAL_JUMP", "", false, false, []⟩ (Or.inl rfl)).1
    rw [h _ rfl]
    decide
  · have h := (comparator_spec
      ⟨"_IFVAL_JUMP", 0, 0,
        [⟨"@LOCALWORK1", ArgType.work, ⟨0, 12, 0, 23⟩⟩,
         ⟨"EQ", ArgType.comparator, ⟨0, 25, 0, 27⟩⟩,
         ⟨"5", ArgType.number, ⟨0, 29, 0, 30⟩⟩,
         ⟨"\"x\"", ArgType.string, ⟨0, 32, 0, 35⟩⟩], ⟨0, 0, 0, 36⟩⟩
      ⟨1, "_IFVAL_JUMP", "", false, false, []⟩ (Or.inl rfl)).1
    rw [h _ rfl]
    decide

end BDSP
